import Mathlib

/-!
Verification of the rANS (range Asymmetric Numeral Systems) encoder/decoder
library `rans-rs`.

The crate under `src/` is a high-level wrapper over the `ryg_rans_sys` FFI
crate: the wrappers (`byte_encoder.rs`, `byte_decoder.rs`, `b64_encoder.rs`,
`b64_decoder.rs`) hold the channel states and cursors and delegate the core
arithmetic to the ryg-rans reference routines, which are not part of the
repository sources.  Following the specification (§4.2), the core arithmetic
is therefore modelled here from the spec's own formulas; the wrapper-level
structure (N channel states, a back-growing output suffix, a forward-moving
input cursor, flush/seed order, channel asserts) is translated from the
Rust sources.

Modelling conventions:
* Machine integers are `Nat`.  All values stay below `2 ^ W` under the
  stated preconditions; the one place where C unsigned wrap-around is
  reachable (the subtraction in the decoder's advance step) carries an
  explicit `% 2 ^ W`.
* The encoder's output buffer plus backward write cursor is modelled as the
  list of emitted IO units, newest first (`data()` is exactly the suffix of
  the buffer from the cursor to the end, and each emission prepends one
  unit to that suffix).
* The decoder's input buffer plus forward read cursor is modelled as the
  list of not-yet-consumed IO units.
* The renormalization loops are modelled with explicit fuel
  (`flushUnits = W / IO_BITS` steps always suffice for a `W`-bit state when
  `x_max ≥ 1`); the reference C loop does not terminate when `x_max = 0`,
  which is only reachable by violating the `freq ≥ 1` precondition.
-/

/-- Width configuration of one rANS variant (spec §3): the state lower
bound is `L = 2 ^ lb`, IO units have `ioBits` bits, and a full state is
`flushUnits` IO units, i.e. `W = ioBits * flushUnits` bits.
The byte-aligned variant is `⟨23, 8, 4⟩`, the 64-bit variant `⟨31, 32, 2⟩`. -/
structure RansCfg where
  lb : Nat
  ioBits : Nat
  flushUnits : Nat
  deriving DecidableEq

/-- Normalization floor `L` (spec §3: `1 << 23` for the byte variant,
`1 << 31` for the 64-bit variant). -/
def RansCfg.L (cfg : RansCfg) : Nat := 2 ^ cfg.lb

/-- State width in bits: `W = IO_BITS * (W / IO_BITS)`. -/
def RansCfg.wBits (cfg : RansCfg) : Nat := cfg.ioBits * cfg.flushUnits

/-- The byte-aligned variant: 32-bit state, 8-bit IO units, `L = 1 << 23`. -/
def byteCfg : RansCfg := ⟨23, 8, 4⟩

/-- The 64-bit variant: 64-bit state, 32-bit IO units, `L = 1 << 31`. -/
def b64Cfg : RansCfg := ⟨31, 32, 2⟩

/-- Encoder-side symbol descriptor.  Modelled from the spec: §4.1 describes
`EncSymbol::new(cum_freq, freq, scale_bits)` as precomputing reciprocal
constants for the division `state / freq`; §4.2 states the encode step
computed with them equals `((x / freq) << scale_bits) + (x mod freq) +
cum_freq`.  The model keeps the defining triple and uses the exact-division
form of the encode step. -/
structure EncSymbol where
  cum_freq : Nat
  freq : Nat
  scale_bits : Nat
  deriving DecidableEq

/-- Decoder-side symbol descriptor.  Modelled from the spec: §4.1
"DecSymbol constructor `new(cum_freq, freq)`: trivial; stores the two
fields" (both width variants store exactly this pair). -/
structure DecSymbol where
  cum_freq : Nat
  freq : Nat
  deriving DecidableEq

/-- `DecSymbol::new` (spec §4.1): stores the two fields. -/
def DecSymbol.new (cum_freq freq : Nat) : DecSymbol := ⟨cum_freq, freq⟩

/-- Validity constraints on an encoded symbol (spec §3 invariants:
`freq ≥ 1`, `cum_freq + freq ≤ 1 << scale_bits`) together with the
requirement that the scale does not exceed `log2 L`, which holds for the
documented scale ranges of both variants (≤ 12 resp. ≤ 16, spec §8). -/
def EncSymbol.Valid (cfg : RansCfg) (sym : EncSymbol) : Prop :=
  1 ≤ sym.freq ∧ sym.cum_freq + sym.freq ≤ 2 ^ sym.scale_bits ∧ sym.scale_bits ≤ cfg.lb

instance (cfg : RansCfg) (sym : EncSymbol) : Decidable (sym.Valid cfg) := by
  unfold EncSymbol.Valid
  infer_instance

/-- Encoder renormalization loop.  Modelled from the spec (§4.2, encode
step 1): while `x ≥ x_max`, emit the low IO_BITS of `x` (prepending the
unit to the output) and shift `x` right by IO_BITS.  `fuel` bounds the
iteration count; `W / IO_BITS` steps always suffice for a state below
`2 ^ W` when `x_max ≥ 1`. -/
def encRenorm (cfg : RansCfg) (xMax : Nat) : Nat → Nat → List Nat → Nat × List Nat
  | 0, x, out => (x, out)
  | fuel + 1, x, out =>
    if xMax ≤ x then
      encRenorm cfg xMax fuel (x / 2 ^ cfg.ioBits) (x % 2 ^ cfg.ioBits :: out)
    else
      (x, out)

/-- One encode step on a single state (spec §4.2): renormalize against
`x_max = ((L >> scale_bits) << IO_BITS) * freq`, then
`x' = ((x / freq) << scale_bits) + (x mod freq) + cum_freq`. -/
def encPutState (cfg : RansCfg) (sym : EncSymbol) (x : Nat) (out : List Nat) :
    Nat × List Nat :=
  let xMax := ((cfg.L >>> sym.scale_bits) <<< cfg.ioBits) * sym.freq
  let r := encRenorm cfg xMax cfg.flushUnits x out
  ((r.1 / sym.freq) * 2 ^ sym.scale_bits + r.1 % sym.freq + sym.cum_freq, r.2)

/-- Splits a `count * io`-bit value into `count` IO units, lowest unit
first — the order in which flush writes the state to the stream
(spec §4.2: "write the W bits of the current state to the output as
W/IO_BITS IO units in an order that mirrors decoder initialization"). -/
def natToUnits (io : Nat) : Nat → Nat → List Nat
  | 0, _ => []
  | count + 1, x => x % 2 ^ io :: natToUnits io count (x / 2 ^ io)

/-- Reassembles IO units into a state value, lowest unit first
(spec §4.2 decoder initialization: `x = unit0 | (unit1 << IO_BITS) | …`). -/
def unitsToNat (io : Nat) : List Nat → Nat
  | [] => 0
  | u :: us => u + 2 ^ io * unitsToNat io us

/-- Updates one channel's state register, leaving the others unchanged. -/
def setCh {N : Nat} (st : Fin N → Nat) (c : Fin N) (v : Nat) : Fin N → Nat :=
  fun j => if j = c then v else st j

/-- N-channel streaming encoder (from `ByteRansEncoderMulti` /
`B64RansEncoderMulti`): N state registers plus the output viewed as the
list of emitted IO units, newest (lowest address) first.  The Rust structs
keep a preallocated buffer `dst` and a backward-moving raw pointer `ptr`;
`out` is exactly the suffix `dst[ptr..]` that `data()` returns, so the
fixed capacity (exceeding it is caller UB) does not appear in the model. -/
structure Encoder (N : Nat) where
  states : Fin N → Nat
  out : List Nat

/-- Encoder construction (from `new` + `reset` in `byte_encoder.rs` /
`b64_encoder.rs`): every channel state is initialized to `L`
(`rans_enc_init`), the write cursor points one past the end of the buffer,
so `data()` is empty. -/
def encInit (cfg : RansCfg) (N : Nat) : Encoder N :=
  ⟨fun _ => cfg.L, []⟩

/-- `reset` (from `byte_encoder.rs` lines 62-72): re-initializes every
channel state to `L` and moves the write cursor back to one past the end
of the buffer, emptying the `data()` suffix. -/
def Encoder.reset (cfg : RansCfg) {N : Nat} (_e : Encoder N) : Encoder N :=
  ⟨fun _ => cfg.L, []⟩

/-- `put_at(channel, symbol)` (from `byte_encoder.rs` lines 74-87 /
`b64_encoder.rs` lines 76-90, delegating to the §4.2 encode step): applies
the encode step to the chosen channel's state and prepends any emitted IO
units to the shared output. -/
def Encoder.putAt (cfg : RansCfg) {N : Nat} (e : Encoder N) (c : Fin N) (sym : EncSymbol) :
    Encoder N :=
  let r := encPutState cfg sym (e.states c) e.out
  ⟨setCh e.states c r.1, r.2⟩

/-- `flush_at(channel)` (from `byte_encoder.rs` lines 89-98, delegating to
`rans_enc_flush`): prepends the channel's full state, as `W / IO_BITS` IO
units in little-endian unit order, to the output.  The state register
itself is not modified. -/
def Encoder.flushAt (cfg : RansCfg) {N : Nat} (e : Encoder N) (c : Fin N) : Encoder N :=
  ⟨e.states, natToUnits cfg.ioBits cfg.flushUnits (e.states c) ++ e.out⟩

/-- `flush_all()` (from `encoder.rs` lines 66-70): `flush_at(0)` through
`flush_at(N-1)` in ascending channel order. -/
def Encoder.flushAll (cfg : RansCfg) {N : Nat} (e : Encoder N) : Encoder N :=
  (List.finRange N).foldl (fun a c => a.flushAt cfg c) e

/-- Single-stream `put` (from `encoder.rs` lines 133-135: `put_at(0, …)`). -/
def Encoder.put (cfg : RansCfg) (e : Encoder 1) (sym : EncSymbol) : Encoder 1 :=
  e.putAt cfg 0 sym

/-- Single-stream `flush` (from `encoder.rs` lines 149-151: `flush_at(0)`). -/
def Encoder.flush (cfg : RansCfg) (e : Encoder 1) : Encoder 1 :=
  e.flushAt cfg 0

/-- `data()` of the byte-aligned encoder (from `byte_encoder.rs` lines
100-107): the buffer suffix from the write cursor to the end; IO units are
single bytes. -/
def byteData {N : Nat} (e : Encoder N) : List Nat := e.out

/-- `data()` of the 64-bit encoder (from `b64_encoder.rs` lines 103-111):
the `u32` buffer suffix viewed as bytes; each 32-bit IO unit is laid out
as 4 little-endian bytes (spec §6 fixes the word variant's unit layout to
little-endian). -/
def b64Data {N : Nat} (e : Encoder N) : List Nat :=
  (e.out.map (natToUnits 8 4)).flatten

/-- Runs a list of `put_at` calls (channel, symbol) in order. -/
def encodeCalls (cfg : RansCfg) {N : Nat} (e : Encoder N)
    (calls : List (Fin N × EncSymbol)) : Encoder N :=
  calls.foldl (fun a p => a.putAt cfg p.1 p.2) e

/-- N-channel streaming decoder (from `ByteRansDecoderMulti` /
`B64RansDecoderMulti`): N state registers plus the not-yet-consumed suffix
of the input, as IO units.  The Rust structs keep the full input buffer
(owned or mutably borrowed `MutCow`) and a forward-moving raw pointer;
`rest` is the suffix from the read cursor on. -/
structure Decoder (N : Nat) where
  states : Fin N → Nat
  rest : List Nat

/-- The per-channel seeding loop of decoder construction: for each channel
in ascending order, read `W / IO_BITS` IO units into that channel's state,
advancing the cursor (`rans_dec_init` / `rans_64_dec_init` called once per
channel).  Returns the seeded states in channel order and the remaining
units. -/
def decSeedStates (cfg : RansCfg) : Nat → List Nat → List Nat × List Nat
  | 0, us => ([], us)
  | n + 1, us =>
    let x := unitsToNat cfg.ioBits (us.take cfg.flushUnits)
    let r := decSeedStates cfg n (us.drop cfg.flushUnits)
    (x :: r.1, r.2)

/-- Decoder construction (from `byte_decoder.rs` lines 32-49 /
`b64_decoder.rs` lines 32-49): `assert!(!data.is_empty())` — an
unconditional assert, live in release builds — then the ascending
per-channel seeding loop.  `none` models the assert panicking on empty
input.  Reading past the end of the input is caller UB in the source
(raw-pointer reads); the model reads missing high units as zero. -/
def Decoder.new (cfg : RansCfg) (N : Nat) (us : List Nat) : Option (Decoder N) :=
  if us = [] then
    none
  else
    let r := decSeedStates cfg N us
    some ⟨fun j => r.1.getD j.val 0, r.2⟩

/-- `get_at(channel, scale_bits)` (from `byte_decoder.rs` lines 62-67,
delegating to `rans_dec_get`): returns `states[channel] & ((1 <<
scale_bits) - 1)`.  The Rust method takes `&mut self` but writes nothing;
the returned decoder component makes that visible. -/
def Decoder.getAt {N : Nat} (d : Decoder N) (c : Fin N) (s : Nat) : Nat × Decoder N :=
  (d.states c &&& (2 ^ s - 1), d)

/-- The decoder advance step on one state (spec §4.2):
`x' = freq * (x >> scale_bits) + (x & mask) - cum_freq`, in width-`w`
unsigned arithmetic — the subtraction wraps modulo `2 ^ w`, hence the
explicit two's-complement form (`cum_freq` is a `u32` value, so
`cum_freq ≤ 2 ^ w`). -/
def decAdvanceStep (w s cum freq x : Nat) : Nat :=
  (freq * (x >>> s) + (x &&& (2 ^ s - 1)) + (2 ^ w - cum)) % 2 ^ w

/-- `advance_step_at(channel, symbol, scale_bits)` (from `byte_decoder.rs`
lines 85-96): applies the advance step to the chosen channel; the read
cursor is untouched. -/
def Decoder.advanceStepAt (cfg : RansCfg) {N : Nat} (d : Decoder N) (c : Fin N)
    (sym : DecSymbol) (s : Nat) : Decoder N :=
  ⟨setCh d.states c (decAdvanceStep cfg.wBits s sym.cum_freq sym.freq (d.states c)), d.rest⟩

/-- Decoder renormalization loop on one state (spec §4.2): while `x < L`,
consume one IO unit from the input and set `x ← (x << IO_BITS) | unit`;
since the unit is below `2 ^ IO_BITS`, the bitwise-or is addition, modelled
as such.  When the input is exhausted the source would read past the buffer
(caller UB, guarded by a debug assert); the model stops. -/
def decRenormState (cfg : RansCfg) : Nat → List Nat → Nat × List Nat
  | x, [] => (x, [])
  | x, u :: us =>
    if x < cfg.L then
      decRenormState cfg (x * 2 ^ cfg.ioBits + u) us
    else
      (x, u :: us)

/-- `renorm_at(channel)` (from `byte_decoder.rs` lines 98-107, delegating
to `rans_dec_renorm`): renormalizes the chosen channel, consuming IO units
from the shared input. -/
def Decoder.renormAt (cfg : RansCfg) {N : Nat} (d : Decoder N) (c : Fin N) : Decoder N :=
  let r := decRenormState cfg (d.states c) d.rest
  ⟨setCh d.states c r.1, r.2⟩

/-- `advance_at(channel, symbol, scale_bits)` (from `byte_decoder.rs`
lines 69-83): the advance step followed by renormalization. -/
def Decoder.advanceAt (cfg : RansCfg) {N : Nat} (d : Decoder N) (c : Fin N)
    (sym : DecSymbol) (s : Nat) : Decoder N :=
  (d.advanceStepAt cfg c sym s).renormAt cfg c

/-- `renorm_all()` (from `decoder.rs` lines 104-108): `renorm_at(0)`
through `renorm_at(N-1)` in ascending channel order. -/
def Decoder.renormAll (cfg : RansCfg) {N : Nat} (d : Decoder N) : Decoder N :=
  (List.finRange N).foldl (fun a c => a.renormAt cfg c) d

/-- Single-stream `get` (from `decoder.rs` lines 126-128: `get_at(0, …)`). -/
def Decoder.get (d : Decoder 1) (s : Nat) : Nat :=
  (d.getAt 0 s).1

/-- Single-stream `advance` (from `decoder.rs` lines 143-145:
`advance_at(0, …)`). -/
def Decoder.advance (cfg : RansCfg) (d : Decoder 1) (sym : DecSymbol) (s : Nat) : Decoder 1 :=
  d.advanceAt cfg 0 sym s

/-- The channel-index check of every channel-indexed operation, as written
in the source (`debug_assert!(channel <= N)`, e.g. `byte_encoder.rs` line
76, `byte_decoder.rs` lines 64, 71, 87, 100): the operation's assert
passes exactly when `channel ≤ N`. -/
def channelAssert (n channel : Nat) : Bool := decide (channel ≤ n)

/-- Reassembles a byte stream into 32-bit little-endian IO units — how the
64-bit decoder reads its input (`b64_decoder.rs` line 38 casts the byte
pointer to `*mut u32`; spec §6 fixes the layout to little-endian).
Trailing bytes that do not fill a unit are never read by a decoder that
stays within its seeded stream. -/
def bytes4ToUnits : List Nat → List Nat
  | b0 :: b1 :: b2 :: b3 :: rest =>
    (b0 + 2 ^ 8 * b1 + 2 ^ 16 * b2 + 2 ^ 24 * b3) :: bytes4ToUnits rest
  | _ => []

/-- The channel flip of the interleaved wire format: `flush_all` prepends
channel states in ascending order, so the decoder's ascending seeding
reads encoder channel `N - 1 - j` into decoder channel `j`. -/
def flipCh (N : Nat) (j : Fin N) : Fin N :=
  ⟨N - 1 - j.val, by omega⟩

/-- Replays a decode schedule: for each entry `(channel, symbol,
scale_bits)` in order, record `get_at(channel, scale_bits)` and then
`advance_at(channel, symbol, scale_bits)`.  Returns the recorded slots and
the final decoder. -/
def replaySchedule (cfg : RansCfg) {N : Nat} :
    Decoder N → List (Fin N × DecSymbol × Nat) → List Nat × Decoder N
  | d, [] => ([], d)
  | d, (c, sym, s) :: rest =>
    let slot := (d.getAt c s).1
    let r := replaySchedule cfg (d.advanceAt cfg c sym s) rest
    (slot :: r.1, r.2)

/-- The decode schedule matching an encode call list (spec §4.3 / §8): the
call order reversed, each channel index flipped to the decoder channel
seeded with that encoder channel's state, with the symbol's decoder
descriptor and scale. -/
def decodeSchedule {N : Nat} (calls : List (Fin N × EncSymbol)) :
    List (Fin N × DecSymbol × Nat) :=
  calls.reverse.map fun p => (flipCh N p.1, ⟨p.2.cum_freq, p.2.freq⟩, p.2.scale_bits)

/-- Encoder operations for the reset-idempotence claim: any interleaving
of `put_at` and `flush_at` calls. -/
inductive EncOp (N : Nat) where
  | put (c : Fin N) (sym : EncSymbol)
  | flushOp (c : Fin N)

/-- Applies one encoder operation. -/
def applyEncOp (cfg : RansCfg) {N : Nat} (e : Encoder N) : EncOp N → Encoder N
  | .put c sym => e.putAt cfg c sym
  | .flushOp c => e.flushAt cfg c

/-- Runs a list of encoder operations in order. -/
def runEncOps (cfg : RansCfg) {N : Nat} (e : Encoder N) (ops : List (EncOp N)) : Encoder N :=
  ops.foldl (applyEncOp cfg) e

/-! ### Basic unit-list lemmas -/

theorem natToUnits_length (io k x : Nat) : (natToUnits io k x).length = k := by
  induction k generalizing x with
  | zero => rfl
  | succ k ih => simp [natToUnits, ih]

theorem unitsToNat_natToUnits (io k x : Nat) (h : x < 2 ^ (io * k)) :
    unitsToNat io (natToUnits io k x) = x := by
  induction k generalizing x with
  | zero =>
    simp only [Nat.mul_zero, pow_zero, Nat.lt_one_iff] at h
    simp [natToUnits, unitsToNat, h]
  | succ k ih =>
    have hdiv : x / 2 ^ io < 2 ^ (io * k) := by
      rw [Nat.div_lt_iff_lt_mul (Nat.pos_pow_of_pos io (by norm_num))]
      calc x < 2 ^ (io * (k + 1)) := h
        _ = 2 ^ (io * k) * 2 ^ io := by rw [← pow_add]; ring_nf
    simp only [natToUnits, unitsToNat, ih (x / 2 ^ io) hdiv]
    exact Nat.mod_add_div x (2 ^ io)

theorem natToUnits_lt (io k x : Nat) : ∀ u ∈ natToUnits io k x, u < 2 ^ io := by
  induction k generalizing x with
  | zero => simp [natToUnits]
  | succ k ih =>
    intro u hu
    simp only [natToUnits, List.mem_cons] at hu
    rcases hu with h | h
    · exact h ▸ Nat.mod_lt x (Nat.pos_pow_of_pos io (by norm_num))
    · exact ih (x / 2 ^ io) u h

theorem setCh_self {N : Nat} (st : Fin N → Nat) (c : Fin N) (v : Nat) :
    setCh st c v c = v := by
  simp [setCh]

theorem setCh_ne {N : Nat} (st : Fin N → Nat) (c j : Fin N) (v : Nat) (h : j ≠ c) :
    setCh st c v j = st j := by
  simp [setCh, h]

theorem and_mask_eq_mod (x s : Nat) : x &&& (2 ^ s - 1) = x % 2 ^ s :=
  Nat.and_pow_two_sub_one_eq_mod x s

/-! ### Decoder renormalization lemmas -/

theorem decRenormState_of_ge (cfg : RansCfg) (x : Nat) (us : List Nat) (h : cfg.L ≤ x) :
    decRenormState cfg x us = (x, us) := by
  cases us with
  | nil => rfl
  | cons u t => simp [decRenormState, Nat.not_lt.2 h]

theorem decRenormState_upper (cfg : RansCfg) (us : List Nat) :
    ∀ x, (∀ u ∈ us, u < 2 ^ cfg.ioBits) → x < cfg.L * 2 ^ cfg.ioBits →
      (decRenormState cfg x us).1 < cfg.L * 2 ^ cfg.ioBits := by
  induction us with
  | nil => intro x _ hx; simpa [decRenormState] using hx
  | cons u t ih =>
    intro x hu hx
    by_cases hlt : x < cfg.L
    · have hu' : u < 2 ^ cfg.ioBits := hu u (List.mem_cons_self u t)
      have hx' : x * 2 ^ cfg.ioBits + u < cfg.L * 2 ^ cfg.ioBits := by
        calc x * 2 ^ cfg.ioBits + u
            < x * 2 ^ cfg.ioBits + 2 ^ cfg.ioBits := by omega
          _ = (x + 1) * 2 ^ cfg.ioBits := by ring
          _ ≤ cfg.L * 2 ^ cfg.ioBits := by
              exact Nat.mul_le_mul_right _ (by omega)
      simpa [decRenormState, hlt] using
        ih (x * 2 ^ cfg.ioBits + u) (fun v hv => hu v (List.mem_cons_of_mem u hv)) hx'
    · simpa [decRenormState, hlt] using hx

theorem decRenormState_restores (cfg : RansCfg) (us : List Nat) :
    ∀ x, cfg.L ≤ (decRenormState cfg x us).1 ∨ (decRenormState cfg x us).2 = [] := by
  induction us with
  | nil => intro x; right; rfl
  | cons u t ih =>
    intro x
    by_cases hlt : x < cfg.L
    · simpa [decRenormState, hlt] using ih (x * 2 ^ cfg.ioBits + u)
    · left
      simpa [decRenormState, hlt] using Nat.not_lt.1 hlt

/-! ### Encoder renormalization lemmas -/

theorem encRenorm_le (cfg : RansCfg) (xMax : Nat) :
    ∀ fuel x out, (encRenorm cfg xMax fuel x out).1 ≤ x := by
  intro fuel
  induction fuel with
  | zero => intro x out; exact Nat.le_refl x
  | succ fuel ih =>
    intro x out
    by_cases h : xMax ≤ x
    · calc (encRenorm cfg xMax (fuel + 1) x out).1
          = (encRenorm cfg xMax fuel (x / 2 ^ cfg.ioBits) (x % 2 ^ cfg.ioBits :: out)).1 := by
            simp [encRenorm, h]
        _ ≤ x / 2 ^ cfg.ioBits := ih _ _
        _ ≤ x := Nat.div_le_self _ _
    · simp [encRenorm, h]

theorem encRenorm_lt (cfg : RansCfg) (xMax : Nat) :
    ∀ fuel x out, x < xMax * 2 ^ (cfg.ioBits * fuel) →
      (encRenorm cfg xMax fuel x out).1 < xMax := by
  intro fuel
  induction fuel with
  | zero =>
    intro x out h
    simpa [encRenorm] using by simpa using h
  | succ fuel ih =>
    intro x out h
    by_cases hge : xMax ≤ x
    · have hdiv : x / 2 ^ cfg.ioBits < xMax * 2 ^ (cfg.ioBits * fuel) := by
        rw [Nat.div_lt_iff_lt_mul (Nat.pos_pow_of_pos cfg.ioBits (by norm_num))]
        calc x < xMax * 2 ^ (cfg.ioBits * (fuel + 1)) := h
          _ = xMax * 2 ^ (cfg.ioBits * fuel) * 2 ^ cfg.ioBits := by
              rw [Nat.mul_assoc, ← pow_add]; ring_nf
      simpa [encRenorm, hge] using ih (x / 2 ^ cfg.ioBits) _ hdiv
    · simpa [encRenorm, hge] using Nat.not_le.1 hge

theorem encRenorm_eq_or_ge (cfg : RansCfg) (xMax : Nat) :
    ∀ fuel x out, (encRenorm cfg xMax fuel x out).1 = x ∨
      xMax / 2 ^ cfg.ioBits ≤ (encRenorm cfg xMax fuel x out).1 := by
  intro fuel
  induction fuel with
  | zero => intro x out; left; rfl
  | succ fuel ih =>
    intro x out
    by_cases hge : xMax ≤ x
    · right
      have hstep : xMax / 2 ^ cfg.ioBits ≤ x / 2 ^ cfg.ioBits :=
        Nat.div_le_div_right hge
      rcases ih (x / 2 ^ cfg.ioBits) (x % 2 ^ cfg.ioBits :: out) with heq | hle
      · simpa [encRenorm, hge, heq] using hstep
      · simpa [encRenorm, hge] using hle
    · left; simp [encRenorm, hge]

theorem encRenorm_dec (cfg : RansCfg) (xMax : Nat) :
    ∀ fuel x out, x < cfg.L * 2 ^ cfg.ioBits →
      decRenormState cfg (encRenorm cfg xMax fuel x out).1 (encRenorm cfg xMax fuel x out).2
        = decRenormState cfg x out := by
  intro fuel
  induction fuel with
  | zero => intro x out _; rfl
  | succ fuel ih =>
    intro x out hx
    by_cases hge : xMax ≤ x
    · have hlow : x / 2 ^ cfg.ioBits < cfg.L := by
        rw [Nat.div_lt_iff_lt_mul (Nat.pos_pow_of_pos cfg.ioBits (by norm_num))]
        exact hx
      have hx' : x / 2 ^ cfg.ioBits < cfg.L * 2 ^ cfg.ioBits :=
        lt_of_lt_of_le hlow (Nat.le_mul_of_pos_right _ (Nat.pos_pow_of_pos _ (by norm_num)))
      have hrec := ih (x / 2 ^ cfg.ioBits) (x % 2 ^ cfg.ioBits :: out) hx'
      calc decRenormState cfg (encRenorm cfg xMax (fuel + 1) x out).1
              (encRenorm cfg xMax (fuel + 1) x out).2
          = decRenormState cfg (x / 2 ^ cfg.ioBits) (x % 2 ^ cfg.ioBits :: out) := by
            simpa [encRenorm, hge] using hrec
        _ = decRenormState cfg (x / 2 ^ cfg.ioBits * 2 ^ cfg.ioBits + x % 2 ^ cfg.ioBits) out := by
            simp [decRenormState, hlow]
        _ = decRenormState cfg x out := by
            rw [Nat.mul_comm (x / 2 ^ cfg.ioBits) (2 ^ cfg.ioBits), Nat.div_add_mod]
    · simp [encRenorm, hge]

theorem encRenorm_out_units (cfg : RansCfg) (xMax : Nat) :
    ∀ fuel x out, ∀ u ∈ (encRenorm cfg xMax fuel x out).2,
      u < 2 ^ cfg.ioBits ∨ u ∈ out := by
  intro fuel
  induction fuel with
  | zero => intro x out u hu; right; exact hu
  | succ fuel ih =>
    intro x out u hu
    by_cases hge : xMax ≤ x
    · simp only [encRenorm, hge, if_pos] at hu
      rcases ih (x / 2 ^ cfg.ioBits) (x % 2 ^ cfg.ioBits :: out) u hu with h | h
      · exact Or.inl h
      · rcases List.mem_cons.1 h with h' | h'
        · exact Or.inl (h' ▸ Nat.mod_lt x (Nat.pos_pow_of_pos _ (by norm_num)))
        · exact Or.inr h'
    · simp only [encRenorm, hge, if_neg, if_false] at hu
      exact Or.inr hu

/-! ### The encode step: invariant preservation and exact inversion -/

theorem xMax_eq (cfg : RansCfg) (s freq : Nat) (hs : s ≤ cfg.lb) :
    ((cfg.L >>> s) <<< cfg.ioBits) * freq = 2 ^ (cfg.lb - s) * 2 ^ cfg.ioBits * freq := by
  rw [RansCfg.L, Nat.shiftRight_eq_div_pow, Nat.pow_div hs (by norm_num), Nat.shiftLeft_eq]

theorem encPutState_spec (cfg : RansCfg) (cum freq s x : Nat) (out : List Nat)
    (hv : EncSymbol.Valid cfg ⟨cum, freq, s⟩) (hW : cfg.lb + cfg.ioBits ≤ cfg.wBits)
    (hx1 : cfg.L ≤ x) (hx2 : x < cfg.L * 2 ^ cfg.ioBits) :
    cfg.L ≤ (encPutState cfg ⟨cum, freq, s⟩ x out).1 ∧
    (encPutState cfg ⟨cum, freq, s⟩ x out).1 < cfg.L * 2 ^ cfg.ioBits ∧
    cum ≤ (encPutState cfg ⟨cum, freq, s⟩ x out).1 % 2 ^ s ∧
    (encPutState cfg ⟨cum, freq, s⟩ x out).1 % 2 ^ s < cum + freq ∧
    decRenormState cfg
      (decAdvanceStep cfg.wBits s cum freq (encPutState cfg ⟨cum, freq, s⟩ x out).1)
      (encPutState cfg ⟨cum, freq, s⟩ x out).2 = (x, out) := by
  obtain ⟨hf, hcf, hsl⟩ := hv
  simp only at hf hcf hsl
  have hxMax := xMax_eq cfg s freq hsl
  have hr1 : (encPutState cfg ⟨cum, freq, s⟩ x out).1 =
      (encRenorm cfg (((cfg.L >>> s) <<< cfg.ioBits) * freq) cfg.flushUnits x out).1 / freq
        * 2 ^ s
        + (encRenorm cfg (((cfg.L >>> s) <<< cfg.ioBits) * freq) cfg.flushUnits x out).1 % freq
        + cum := rfl
  have hr2 : (encPutState cfg ⟨cum, freq, s⟩ x out).2 =
      (encRenorm cfg (((cfg.L >>> s) <<< cfg.ioBits) * freq) cfg.flushUnits x out).2 := rfl
  set r := encRenorm cfg (((cfg.L >>> s) <<< cfg.ioBits) * freq) cfg.flushUnits x out with hrdef
  set y := r.1 with hydef
  set q := y / freq with hqdef
  set m := y % freq with hmdef
  have hfreqpos : 0 < freq := hf
  have hm : m < freq := Nat.mod_lt y hfreqpos
  have hmc : m + cum < 2 ^ s := by omega
  have hLio : cfg.L * 2 ^ cfg.ioBits = 2 ^ (cfg.lb + cfg.ioBits) := by
    rw [RansCfg.L, pow_add]
  have hWpow : (2 : Nat) ^ (cfg.lb + cfg.ioBits) ≤ 2 ^ cfg.wBits :=
    Nat.pow_le_pow_right (by norm_num) hW
  have hx2w : x < 2 ^ cfg.wBits := lt_of_lt_of_le (hLio ▸ hx2) hWpow
  have hyx : y ≤ x := encRenorm_le cfg _ cfg.flushUnits x out
  have hKfpos : 0 < ((cfg.L >>> s) <<< cfg.ioBits) * freq := by
    rw [hxMax]
    exact Nat.mul_pos (Nat.mul_pos (Nat.pos_pow_of_pos _ (by norm_num))
      (Nat.pos_pow_of_pos _ (by norm_num))) hfreqpos
  have hylt : y < 2 ^ (cfg.lb - s) * 2 ^ cfg.ioBits * freq := by
    rw [← hxMax]
    apply encRenorm_lt
    calc x < 2 ^ cfg.wBits := hx2w
      _ = 1 * 2 ^ (cfg.ioBits * cfg.flushUnits) := by rw [RansCfg.wBits, Nat.one_mul]
      _ ≤ ((cfg.L >>> s) <<< cfg.ioBits) * freq * 2 ^ (cfg.ioBits * cfg.flushUnits) :=
        Nat.mul_le_mul_right _ hKfpos
  have hq2 : q < 2 ^ (cfg.lb - s) * 2 ^ cfg.ioBits :=
    (Nat.div_lt_iff_lt_mul hfreqpos).2 hylt
  have hq1 : 2 ^ (cfg.lb - s) ≤ q := by
    rcases encRenorm_eq_or_ge cfg (((cfg.L >>> s) <<< cfg.ioBits) * freq)
        cfg.flushUnits x out with heq | hge
    · have hyL : cfg.L ≤ y := by rw [← hrdef] at heq; omega
      have hfs : freq ≤ 2 ^ s := by omega
      calc 2 ^ (cfg.lb - s) = cfg.L / 2 ^ s := by
            rw [RansCfg.L, Nat.pow_div hsl (by norm_num)]
        _ ≤ y / 2 ^ s := Nat.div_le_div_right hyL
        _ ≤ y / freq := Nat.div_le_div_left hfs hfreqpos
    · have hdiv : ((cfg.L >>> s) <<< cfg.ioBits) * freq / 2 ^ cfg.ioBits
          = 2 ^ (cfg.lb - s) * freq := by
        rw [hxMax, Nat.mul_right_comm]
        exact Nat.mul_div_cancel _ (Nat.pos_pow_of_pos _ (by norm_num))
      rw [hdiv] at hge
      calc 2 ^ (cfg.lb - s) = 2 ^ (cfg.lb - s) * freq / freq :=
            (Nat.mul_div_cancel _ hfreqpos).symm
        _ ≤ y / freq := Nat.div_le_div_right hge
  have hx'eq : (encPutState cfg ⟨cum, freq, s⟩ x out).1 = (m + cum) + q * 2 ^ s := by
    rw [hr1]; ring
  have hslot : (encPutState cfg ⟨cum, freq, s⟩ x out).1 % 2 ^ s = m + cum := by
    rw [hx'eq, Nat.add_mul_mod_self_right, Nat.mod_eq_of_lt hmc]
  have hKLio : 2 ^ (cfg.lb - s) * 2 ^ cfg.ioBits * 2 ^ s = cfg.L * 2 ^ cfg.ioBits := by
    rw [Nat.mul_right_comm, ← pow_add, Nat.sub_add_cancel hsl, RansCfg.L]
  have hlower : cfg.L ≤ (encPutState cfg ⟨cum, freq, s⟩ x out).1 := by
    have h1 : 2 ^ (cfg.lb - s) * 2 ^ s ≤ q * 2 ^ s := Nat.mul_le_mul_right _ hq1
    have h2 : 2 ^ (cfg.lb - s) * 2 ^ s = cfg.L := by
      rw [← pow_add, Nat.sub_add_cancel hsl, RansCfg.L]
    rw [hx'eq]
    omega
  have hupper : (encPutState cfg ⟨cum, freq, s⟩ x out).1 < cfg.L * 2 ^ cfg.ioBits := by
    have h1 : (q + 1) * 2 ^ s ≤ 2 ^ (cfg.lb - s) * 2 ^ cfg.ioBits * 2 ^ s :=
      Nat.mul_le_mul_right _ (by omega)
    have h2 : (q + 1) * 2 ^ s = q * 2 ^ s + 2 ^ s := by ring
    rw [hx'eq, ← hKLio]
    omega
  have hstep : decAdvanceStep cfg.wBits s cum freq (encPutState cfg ⟨cum, freq, s⟩ x out).1
      = y := by
    have hshift : (encPutState cfg ⟨cum, freq, s⟩ x out).1 >>> s = q := by
      rw [Nat.shiftRight_eq_div_pow, hx'eq,
        Nat.add_mul_div_right _ _ (Nat.pos_pow_of_pos s (by norm_num)),
        Nat.div_eq_of_lt hmc, Nat.zero_add]
    have hand : (encPutState cfg ⟨cum, freq, s⟩ x out).1 &&& (2 ^ s - 1) = m + cum := by
      rw [and_mask_eq_mod, hslot]
    have hcumw : cum ≤ 2 ^ cfg.wBits := by
      have hsw : (2 : Nat) ^ s ≤ 2 ^ cfg.wBits :=
        Nat.pow_le_pow_right (by norm_num) (by omega)
      omega
    have hyw : y < 2 ^ cfg.wBits := lt_of_le_of_lt hyx hx2w
    rw [decAdvanceStep, hshift, hand]
    have harith : freq * q + (m + cum) + (2 ^ cfg.wBits - cum) = freq * q + m + 2 ^ cfg.wBits := by
      omega
    rw [harith, Nat.add_mod_right, Nat.mod_eq_of_lt (by rw [hqdef, hmdef, Nat.div_add_mod]; exact hyw)]
    rw [hqdef, hmdef, Nat.div_add_mod]
  refine ⟨hlower, hupper, by omega, by omega, ?_⟩
  rw [hstep, hr2, hydef, hrdef, encRenorm_dec cfg _ cfg.flushUnits x out hx2,
    decRenormState_of_ge cfg x out hx1]

/-! ### Encoder-level invariants -/

/-- The renormalization invariant (spec §3): every channel state lies in
`[L, L << IO_BITS)`. -/
def EncInv (cfg : RansCfg) {N : Nat} (e : Encoder N) : Prop :=
  ∀ c : Fin N, cfg.L ≤ e.states c ∧ e.states c < cfg.L * 2 ^ cfg.ioBits

/-- All stream units are genuine IO units (below `2 ^ IO_BITS`). -/
def UnitsLt (io : Nat) (us : List Nat) : Prop :=
  ∀ u ∈ us, u < 2 ^ io

instance (io : Nat) (us : List Nat) : Decidable (UnitsLt io us) := by
  unfold UnitsLt
  infer_instance

theorem encInit_inv (cfg : RansCfg) (N : Nat) (hio : 1 ≤ cfg.ioBits) :
    EncInv cfg (encInit cfg N) := by
  intro c
  refine ⟨Nat.le_refl _, ?_⟩
  exact (Nat.lt_mul_iff_one_lt_right (Nat.pos_pow_of_pos _ (by norm_num))).2
    (Nat.one_lt_two_pow_iff.2 (by omega))

theorem putAt_inv (cfg : RansCfg) {N : Nat} (e : Encoder N) (c : Fin N) (sym : EncSymbol)
    (hv : sym.Valid cfg) (hW : cfg.lb + cfg.ioBits ≤ cfg.wBits) (he : EncInv cfg e) :
    EncInv cfg (e.putAt cfg c sym) := by
  intro j
  by_cases hj : j = c
  · subst hj
    have hspec := encPutState_spec cfg sym.cum_freq sym.freq sym.scale_bits
      (e.states j) e.out hv hW (he j).1 (he j).2
    simpa [Encoder.putAt, setCh_self] using ⟨hspec.1, hspec.2.1⟩
  · simpa [Encoder.putAt, setCh_ne _ _ _ _ hj] using he j

theorem encodeCalls_cons (cfg : RansCfg) {N : Nat} (e : Encoder N)
    (p : Fin N × EncSymbol) (calls : List (Fin N × EncSymbol)) :
    encodeCalls cfg e (p :: calls) = encodeCalls cfg (e.putAt cfg p.1 p.2) calls := rfl

theorem encodeCalls_inv (cfg : RansCfg) {N : Nat} (calls : List (Fin N × EncSymbol)) :
    ∀ e : Encoder N, (∀ p ∈ calls, EncSymbol.Valid cfg p.2) →
      (cfg.lb + cfg.ioBits ≤ cfg.wBits) → EncInv cfg e →
      EncInv cfg (encodeCalls cfg e calls) := by
  induction calls with
  | nil => intro e _ _ he; exact he
  | cons p rest ih =>
    intro e hv hW he
    rw [encodeCalls_cons]
    exact ih _ (fun q hq => hv q (List.mem_cons_of_mem p hq)) hW
      (putAt_inv cfg e p.1 p.2 (hv p (List.mem_cons_self p rest)) hW he)

theorem putAt_units (cfg : RansCfg) {N : Nat} (e : Encoder N) (c : Fin N) (sym : EncSymbol)
    (h : UnitsLt cfg.ioBits e.out) : UnitsLt cfg.ioBits (e.putAt cfg c sym).out := by
  intro u hu
  have : u < 2 ^ cfg.ioBits ∨ u ∈ e.out :=
    encRenorm_out_units cfg _ cfg.flushUnits (e.states c) e.out u hu
  rcases this with h' | h'
  · exact h'
  · exact h u h'

theorem encodeCalls_units (cfg : RansCfg) {N : Nat} (calls : List (Fin N × EncSymbol)) :
    ∀ e : Encoder N, UnitsLt cfg.ioBits e.out →
      UnitsLt cfg.ioBits (encodeCalls cfg e calls).out := by
  induction calls with
  | nil => intro e he; exact he
  | cons p rest ih =>
    intro e he
    rw [encodeCalls_cons]
    exact ih _ (putAt_units cfg e p.1 p.2 he)

/-! ### Flush / decoder-construction correspondence -/

theorem flushFold_states (cfg : RansCfg) {N : Nat} (l : List (Fin N)) :
    ∀ e : Encoder N, (l.foldl (fun a c => a.flushAt cfg c) e).states = e.states := by
  induction l with
  | nil => intro e; rfl
  | cons c t ih => intro e; simpa [Encoder.flushAt] using ih (e.flushAt cfg c)

theorem flushFold_out (cfg : RansCfg) {N : Nat} (l : List (Fin N)) :
    ∀ e : Encoder N, (l.foldl (fun a c => a.flushAt cfg c) e).out =
      (l.reverse.map (fun c => natToUnits cfg.ioBits cfg.flushUnits (e.states c))).flatten
        ++ e.out := by
  induction l with
  | nil => intro e; rfl
  | cons c t ih =>
    intro e
    calc (List.foldl (fun a c => a.flushAt cfg c) e (c :: t)).out
        = (List.foldl (fun a c => a.flushAt cfg c) (e.flushAt cfg c) t).out := rfl
      _ = (t.reverse.map
              (fun j => natToUnits cfg.ioBits cfg.flushUnits ((e.flushAt cfg c).states j))).flatten
            ++ (e.flushAt cfg c).out := ih (e.flushAt cfg c)
      _ = ((c :: t).reverse.map
              (fun j => natToUnits cfg.ioBits cfg.flushUnits (e.states j))).flatten ++ e.out := by
          simp [Encoder.flushAt, List.reverse_cons, List.flatten_append]

theorem flushAll_states (cfg : RansCfg) {N : Nat} (e : Encoder N) :
    (e.flushAll cfg).states = e.states :=
  flushFold_states cfg (List.finRange N) e

theorem flushAll_out (cfg : RansCfg) {N : Nat} (e : Encoder N) :
    (e.flushAll cfg).out =
      ((List.finRange N).reverse.map
        (fun c => natToUnits cfg.ioBits cfg.flushUnits (e.states c))).flatten ++ e.out :=
  flushFold_out cfg (List.finRange N) e

theorem decSeedStates_flatten (cfg : RansCfg) (xs : List Nat) :
    ∀ rest : List Nat, (∀ x ∈ xs, x < 2 ^ (cfg.ioBits * cfg.flushUnits)) →
      decSeedStates cfg xs.length
        ((xs.map (natToUnits cfg.ioBits cfg.flushUnits)).flatten ++ rest) = (xs, rest) := by
  induction xs with
  | nil => intro rest _; rfl
  | cons x t ih =>
    intro rest hx
    have hlen : (natToUnits cfg.ioBits cfg.flushUnits x).length = cfg.flushUnits :=
      natToUnits_length _ _ _
    have hstream : (((x :: t).map (natToUnits cfg.ioBits cfg.flushUnits)).flatten ++ rest)
        = natToUnits cfg.ioBits cfg.flushUnits x
          ++ ((t.map (natToUnits cfg.ioBits cfg.flushUnits)).flatten ++ rest) := by
      simp
    have htake : (natToUnits cfg.ioBits cfg.flushUnits x
          ++ ((t.map (natToUnits cfg.ioBits cfg.flushUnits)).flatten ++ rest)).take
            cfg.flushUnits = natToUnits cfg.ioBits cfg.flushUnits x :=
      List.take_left' hlen
    have hdrop : (natToUnits cfg.ioBits cfg.flushUnits x
          ++ ((t.map (natToUnits cfg.ioBits cfg.flushUnits)).flatten ++ rest)).drop
            cfg.flushUnits
          = (t.map (natToUnits cfg.ioBits cfg.flushUnits)).flatten ++ rest :=
      List.drop_left' hlen
    have hrec := ih rest (fun v hv => hx v (List.mem_cons_of_mem x hv))
    simp only [List.length_cons, decSeedStates, hstream, htake, hdrop, hrec]
    rw [unitsToNat_natToUnits _ _ _ (hx x (List.mem_cons_self x t))]

theorem flipCh_flipCh {N : Nat} (j : Fin N) : flipCh N (flipCh N j) = j := by
  have hj := j.isLt
  apply Fin.ext
  simp only [flipCh]
  omega

theorem decoderNew_flushAll (cfg : RansCfg) {N : Nat} (e : Encoder N)
    (hN : 1 ≤ N) (hfU : 1 ≤ cfg.flushUnits)
    (hst : ∀ c, e.states c < 2 ^ (cfg.ioBits * cfg.flushUnits)) :
    ∃ d : Decoder N, Decoder.new cfg N (e.flushAll cfg).out = some d ∧
      (∀ j, d.states j = e.states (flipCh N j)) ∧ d.rest = e.out := by
  have hmap : ((List.finRange N).reverse.map
        (fun c => natToUnits cfg.ioBits cfg.flushUnits (e.states c))) =
      ((List.finRange N).reverse.map e.states).map (natToUnits cfg.ioBits cfg.flushUnits) := by
    rw [List.map_map]
    rfl
  have hxs_len : ((List.finRange N).reverse.map e.states).length = N := by
    simp
  have hbound : ∀ x ∈ (List.finRange N).reverse.map e.states,
      x < 2 ^ (cfg.ioBits * cfg.flushUnits) := by
    intro x hx
    obtain ⟨c, _, rfl⟩ := List.mem_map.1 hx
    exact hst c
  have hseed : decSeedStates cfg N (e.flushAll cfg).out =
      ((List.finRange N).reverse.map e.states, e.out) := by
    have h := decSeedStates_flatten cfg ((List.finRange N).reverse.map e.states) e.out hbound
    rw [hxs_len] at h
    rw [flushAll_out, hmap]
    exact h
  have hne : (e.flushAll cfg).out ≠ [] := by
    rw [flushAll_out, hmap]
    intro h
    obtain ⟨x0, xs', hxx⟩ : ∃ a l, (List.finRange N).reverse.map e.states = a :: l := by
      apply List.exists_cons_of_ne_nil
      intro hnil
      rw [hnil] at hxs_len
      simp at hxs_len
      omega
    rw [hxx] at h
    simp only [List.map_cons, List.flatten_cons, List.append_assoc, List.append_eq_nil] at h
    have := natToUnits_length cfg.ioBits cfg.flushUnits x0
    rw [h.1] at this
    simp at this
    omega
  refine ⟨⟨fun j => ((List.finRange N).reverse.map e.states).getD j.val 0, e.out⟩, ?_, ?_, rfl⟩
  · simp only [Decoder.new, if_neg hne, hseed]
  · intro j
    show ((List.finRange N).reverse.map e.states).getD j.val 0 = e.states (flipCh N j)
    have hj : j.val < ((List.finRange N).reverse.map e.states).length := by
      rw [hxs_len]; exact j.isLt
    rw [List.getD_eq_getElem _ 0 hj]
    have hj2 : j.val < ((List.finRange N).reverse).length := by
      simp only [List.length_reverse, List.length_finRange]
      exact j.isLt
    rw [List.getElem_map]
    congr 1
    have hj3 : ((List.finRange N).reverse).length - 1 - j.val < (List.finRange N).length := by
      simp only [List.length_reverse, List.length_finRange] at *
      omega
    rw [List.getElem_reverse]
    apply Fin.ext
    rw [List.getElem_finRange]
    simp [flipCh]

theorem replaySchedule_append (cfg : RansCfg) {N : Nat}
    (l1 l2 : List (Fin N × DecSymbol × Nat)) :
    ∀ d : Decoder N,
      replaySchedule cfg d (l1 ++ l2) =
        ((replaySchedule cfg d l1).1
            ++ (replaySchedule cfg (replaySchedule cfg d l1).2 l2).1,
          (replaySchedule cfg (replaySchedule cfg d l1).2 l2).2) := by
  induction l1 with
  | nil => intro d; simp [replaySchedule]
  | cons entry t ih =>
    intro d
    obtain ⟨c, sym, s⟩ := entry
    simp [replaySchedule, ih]

/-! ### The master inversion lemma: replaying the reversed schedule
decodes every encoded symbol and returns the decoder to the mirror of the
starting encoder. -/

theorem replay_inverts (cfg : RansCfg) {N : Nat}
    (hW : cfg.lb + cfg.ioBits ≤ cfg.wBits) :
    ∀ (calls : List (Fin N × EncSymbol)) (E : Encoder N) (D : Decoder N),
      (∀ p ∈ calls, EncSymbol.Valid cfg p.2) →
      EncInv cfg E →
      (∀ j, D.states j = (encodeCalls cfg E calls).states (flipCh N j)) →
      D.rest = (encodeCalls cfg E calls).out →
      List.Forall₂ (fun (p : Fin N × EncSymbol) slot =>
          p.2.cum_freq ≤ slot ∧ slot < p.2.cum_freq + p.2.freq)
        calls.reverse (replaySchedule cfg D (decodeSchedule calls)).1 ∧
      (∀ j, (replaySchedule cfg D (decodeSchedule calls)).2.states j
          = E.states (flipCh N j)) ∧
      (replaySchedule cfg D (decodeSchedule calls)).2.rest = E.out := by
  intro calls
  induction calls with
  | nil =>
    intro E D _ _ hDs hDr
    exact ⟨List.Forall₂.nil, hDs, hDr⟩
  | cons p rest ih =>
    intro E D hv hE hDs hDr
    obtain ⟨c, sym⟩ := p
    have hv_head : EncSymbol.Valid cfg sym := hv (c, sym) (List.mem_cons_self _ _)
    have hv_rest : ∀ q ∈ rest, EncSymbol.Valid cfg q.2 :=
      fun q hq => hv q (List.mem_cons_of_mem _ hq)
    have hE' : EncInv cfg (E.putAt cfg c sym) := putAt_inv cfg E c sym hv_head hW hE
    have hcalls : encodeCalls cfg E ((c, sym) :: rest)
        = encodeCalls cfg (E.putAt cfg c sym) rest := rfl
    have hsched : decodeSchedule ((c, sym) :: rest)
        = decodeSchedule rest
          ++ [(flipCh N c, (⟨sym.cum_freq, sym.freq⟩ : DecSymbol), sym.scale_bits)] := by
      simp [decodeSchedule, List.reverse_cons]
    have hIH := ih (E.putAt cfg c sym) D hv_rest hE'
      (by intro j; rw [hDs j, hcalls]) (by rw [hDr, hcalls])
    obtain ⟨hF1, hD1s, hD1r⟩ := hIH
    set D1 := (replaySchedule cfg D (decodeSchedule rest)).2 with hD1def
    -- the state written by this put on channel c, before and after
    have hx := encPutState_spec cfg sym.cum_freq sym.freq sym.scale_bits
      (E.states c) E.out hv_head hW (hE c).1 (hE c).2
    have hputs : (E.putAt cfg c sym).states c
        = (encPutState cfg sym (E.states c) E.out).1 := by
      simp [Encoder.putAt, setCh_self]
    have hpouts : (E.putAt cfg c sym).out = (encPutState cfg sym (E.states c) E.out).2 := rfl
    have hD1c : D1.states (flipCh N c) = (encPutState cfg sym (E.states c) E.out).1 := by
      rw [hD1s (flipCh N c), flipCh_flipCh, hputs]
    -- the recorded slot of the single trailing step
    have hslot : (D1.getAt (flipCh N c) sym.scale_bits).1
        = (encPutState cfg sym (E.states c) E.out).1 % 2 ^ sym.scale_bits := by
      simp only [Decoder.getAt, hD1c, and_mask_eq_mod]
    -- the single trailing advance restores channel c and the stream
    have hadv : (D1.advanceAt cfg (flipCh N c) ⟨sym.cum_freq, sym.freq⟩ sym.scale_bits).rest
          = E.out ∧
        ∀ j, (D1.advanceAt cfg (flipCh N c) ⟨sym.cum_freq, sym.freq⟩ sym.scale_bits).states j
          = E.states (flipCh N j) := by
      have hstep : decAdvanceStep cfg.wBits sym.scale_bits sym.cum_freq sym.freq
            (D1.states (flipCh N c))
          = decAdvanceStep cfg.wBits sym.scale_bits sym.cum_freq sym.freq
            (encPutState cfg sym (E.states c) E.out).1 := by rw [hD1c]
      have hren : decRenormState cfg
            (decAdvanceStep cfg.wBits sym.scale_bits sym.cum_freq sym.freq
              (encPutState cfg sym (E.states c) E.out).1)
            (encPutState cfg sym (E.states c) E.out).2 = (E.states c, E.out) :=
        hx.2.2.2.2
      constructor
      · simp only [Decoder.advanceAt, Decoder.renormAt, Decoder.advanceStepAt,
          setCh_self, hstep, hD1r, hpouts, hren]
      · intro j
        by_cases hj : j = flipCh N c
        · subst hj
          simp only [Decoder.advanceAt, Decoder.renormAt, Decoder.advanceStepAt,
            setCh_self, hstep, hD1r, hpouts, hren, flipCh_flipCh]
        · have hflip : flipCh N j ≠ c := by
            intro hcontra
            apply hj
            rw [← flipCh_flipCh j, hcontra]
          simp only [Decoder.advanceAt, Decoder.renormAt, Decoder.advanceStepAt,
            setCh_ne _ _ _ _ hj, hD1s j]
          simp [Encoder.putAt, setCh_ne _ _ _ _ hflip]
    rw [hsched, replaySchedule_append]
    constructor
    · simp only [List.reverse_cons]
      apply List.rel_append hF1
      have : (replaySchedule cfg D1
          [(flipCh N c, (⟨sym.cum_freq, sym.freq⟩ : DecSymbol), sym.scale_bits)]).1
          = [(D1.getAt (flipCh N c) sym.scale_bits).1] := rfl
      rw [← hD1def, this, hslot]
      exact List.Forall₂.cons ⟨hx.2.2.1, hx.2.2.2.1⟩ List.Forall₂.nil
    · have hone : (replaySchedule cfg D1
          [(flipCh N c, (⟨sym.cum_freq, sym.freq⟩ : DecSymbol), sym.scale_bits)]).2
          = D1.advanceAt cfg (flipCh N c) ⟨sym.cum_freq, sym.freq⟩ sym.scale_bits := rfl
      rw [← hD1def, hone]
      exact ⟨hadv.2, hadv.1⟩

/-! ### Byte serialization of the 64-bit variant's stream -/

theorem bytes4ToUnits_flatten (us : List Nat) (h : ∀ u ∈ us, u < 2 ^ 32) :
    bytes4ToUnits ((us.map (natToUnits 8 4)).flatten) = us := by
  induction us with
  | nil => rfl
  | cons u t ih =>
    have hu : u < 2 ^ 32 := h u (List.mem_cons_self u t)
    have hexp : natToUnits 8 4 u
        = [u % 2 ^ 8, u / 2 ^ 8 % 2 ^ 8, u / 2 ^ 8 / 2 ^ 8 % 2 ^ 8,
            u / 2 ^ 8 / 2 ^ 8 / 2 ^ 8 % 2 ^ 8] := by
      simp [natToUnits]
    have hval : u % 2 ^ 8 + 2 ^ 8 * (u / 2 ^ 8 % 2 ^ 8)
        + 2 ^ 16 * (u / 2 ^ 8 / 2 ^ 8 % 2 ^ 8)
        + 2 ^ 24 * (u / 2 ^ 8 / 2 ^ 8 / 2 ^ 8 % 2 ^ 8) = u := by
      have h8 : (2 : Nat) ^ 8 = 256 := by norm_num
      have h16 : (2 : Nat) ^ 16 = 65536 := by norm_num
      have h24 : (2 : Nat) ^ 24 = 16777216 := by norm_num
      have h32 : (2 : Nat) ^ 32 = 4294967296 := by norm_num
      rw [h8, h16, h24]
      rw [h32] at hu
      omega
    calc bytes4ToUnits (((u :: t).map (natToUnits 8 4)).flatten)
        = bytes4ToUnits (natToUnits 8 4 u ++ ((t.map (natToUnits 8 4)).flatten)) := by
          simp
      _ = (u % 2 ^ 8 + 2 ^ 8 * (u / 2 ^ 8 % 2 ^ 8)
            + 2 ^ 16 * (u / 2 ^ 8 / 2 ^ 8 % 2 ^ 8)
            + 2 ^ 24 * (u / 2 ^ 8 / 2 ^ 8 / 2 ^ 8 % 2 ^ 8))
            :: bytes4ToUnits ((t.map (natToUnits 8 4)).flatten) := by
          rw [hexp]
          rfl
      _ = u :: t := by
          rw [hval, ih (fun v hv => h v (List.mem_cons_of_mem u hv))]

theorem bytes4ToUnits_drop4 (bs : List Nat) :
    bytes4ToUnits (bs.drop 4) = (bytes4ToUnits bs).drop 1 := by
  rcases bs with _ | ⟨a, _ | ⟨b, _ | ⟨c, _ | ⟨d, rest⟩⟩⟩⟩ <;> rfl

theorem bytes4ToUnits_drop (k : Nat) :
    ∀ bs : List Nat, bytes4ToUnits (bs.drop (4 * k)) = (bytes4ToUnits bs).drop k := by
  induction k with
  | zero => intro bs; rfl
  | succ k ih =>
    intro bs
    have h1 : bs.drop (4 * (k + 1)) = (bs.drop 4).drop (4 * k) := by
      rw [List.drop_drop]
      congr 1
      omega
    rw [h1, ih (bs.drop 4), bytes4ToUnits_drop4, List.drop_drop]
    congr 1
    omega

theorem unitsToNat32_take2 (cs : List Nat) (h : 8 ≤ cs.length) :
    unitsToNat 32 ((bytes4ToUnits cs).take 2) = unitsToNat 8 (cs.take 8) := by
  rcases cs with _ | ⟨c0, _ | ⟨c1, _ | ⟨c2, _ | ⟨c3, _ | ⟨c4, _ | ⟨c5, _ | ⟨c6, _ | ⟨c7, rest⟩⟩⟩⟩⟩⟩⟩⟩ <;>
    simp_all [bytes4ToUnits, unitsToNat]
  ring_nf

/-! ### Closed form of decoder seeding -/

theorem decSeedStates_closed (cfg : RansCfg) :
    ∀ (n : Nat) (us : List Nat),
      (decSeedStates cfg n us).1 = (List.range n).map
          (fun j => unitsToNat cfg.ioBits ((us.drop (j * cfg.flushUnits)).take cfg.flushUnits))
        ∧ (decSeedStates cfg n us).2 = us.drop (n * cfg.flushUnits) := by
  intro n
  induction n with
  | zero => intro us; exact ⟨rfl, by simp [decSeedStates]⟩
  | succ n ih =>
    intro us
    obtain ⟨ih1, ih2⟩ := ih (us.drop cfg.flushUnits)
    constructor
    · show unitsToNat cfg.ioBits (us.take cfg.flushUnits)
          :: (decSeedStates cfg n (us.drop cfg.flushUnits)).1 = _
      rw [ih1, List.range_succ_eq_map, List.map_cons, List.map_map]
      congr 1
      · simp
      · apply List.map_congr_left
        intro j _
        simp only [Function.comp_apply, List.drop_drop]
        congr 2
        rw [Nat.succ_eq_add_one]
        ring_nf
    · show (decSeedStates cfg n (us.drop cfg.flushUnits)).2 = _
      rw [ih2, List.drop_drop]
      congr 1
      ring_nf

/-! ### The generic round-trip, stated on the real pipeline -/

theorem roundtrip_general (cfg : RansCfg) {N : Nat}
    (hio : 1 ≤ cfg.ioBits) (hfU : 1 ≤ cfg.flushUnits)
    (hW : cfg.lb + cfg.ioBits ≤ cfg.wBits) (hN : 1 ≤ N)
    (calls : List (Fin N × EncSymbol))
    (hv : ∀ p ∈ calls, EncSymbol.Valid cfg p.2) :
    ∃ d : Decoder N,
      Decoder.new cfg N ((encodeCalls cfg (encInit cfg N) calls).flushAll cfg).out = some d ∧
      List.Forall₂ (fun (p : Fin N × EncSymbol) slot =>
          p.2.cum_freq ≤ slot ∧ slot < p.2.cum_freq + p.2.freq)
        calls.reverse (replaySchedule cfg d (decodeSchedule calls)).1 ∧
      (∀ j, (replaySchedule cfg d (decodeSchedule calls)).2.states j = cfg.L) ∧
      (replaySchedule cfg d (decodeSchedule calls)).2.rest = [] := by
  set E := encodeCalls cfg (encInit cfg N) calls with hEdef
  have hE : EncInv cfg E :=
    encodeCalls_inv cfg calls (encInit cfg N) hv hW (encInit_inv cfg N hio)
  have hst : ∀ c, E.states c < 2 ^ (cfg.ioBits * cfg.flushUnits) := by
    intro c
    have h1 : cfg.L * 2 ^ cfg.ioBits = 2 ^ (cfg.lb + cfg.ioBits) := by
      rw [RansCfg.L, pow_add]
    have h2 : (2 : Nat) ^ (cfg.lb + cfg.ioBits) ≤ 2 ^ (cfg.ioBits * cfg.flushUnits) :=
      Nat.pow_le_pow_right (by norm_num) hW
    calc E.states c < cfg.L * 2 ^ cfg.ioBits := (hE c).2
      _ ≤ 2 ^ (cfg.ioBits * cfg.flushUnits) := h1 ▸ h2
  obtain ⟨d, hnew, hds, hdr⟩ := decoderNew_flushAll cfg E hN hfU hst
  obtain ⟨hF, hfin_s, hfin_r⟩ := replay_inverts cfg hW calls (encInit cfg N) d hv
    (encInit_inv cfg N hio) (fun j => hds j) hdr
  exact ⟨d, hnew, hF, fun j => hfin_s j, hfin_r⟩

theorem flushAll_units (cfg : RansCfg) {N : Nat} (e : Encoder N)
    (h : UnitsLt cfg.ioBits e.out) : UnitsLt cfg.ioBits (e.flushAll cfg).out := by
  intro u hu
  rw [flushAll_out] at hu
  rcases List.mem_append.1 hu with h1 | h2
  · obtain ⟨l, hl, hul⟩ := List.mem_flatten.1 h1
    obtain ⟨c, _, rfl⟩ := List.mem_map.1 hl
    exact natToUnits_lt _ _ _ u hul
  · exact h u h2

/-- Construction of the 64-bit decoder from its byte buffer (from
`b64_decoder.rs` lines 32-49): `assert!(!data.is_empty())` on the byte
buffer, then the per-channel seeding loop reading 32-bit little-endian
units from the bytes (the source casts the byte pointer to `*mut u32`). -/
def b64DecoderNew (N : Nat) (bs : List Nat) : Option (Decoder N) :=
  if bs = [] then
    none
  else
    let r := decSeedStates b64Cfg N (bytes4ToUnits bs)
    some ⟨fun j => r.1.getD j.val 0, r.2⟩

theorem b64DecoderNew_data {N : Nat} (e : Encoder N) (hne : e.out ≠ [])
    (hu : UnitsLt 32 e.out) :
    b64DecoderNew N (b64Data e) = Decoder.new b64Cfg N e.out := by
  have hb : bytes4ToUnits (b64Data e) = e.out := bytes4ToUnits_flatten e.out hu
  have hbs : b64Data e ≠ [] := by
    intro h
    apply hne
    rw [← hb, h]
    rfl
  unfold b64DecoderNew Decoder.new
  rw [if_neg hbs, if_neg hne, hb]

theorem new_some_ne_nil (cfg : RansCfg) {N : Nat} (us : List Nat) (d : Decoder N)
    (h : Decoder.new cfg N us = some d) : us ≠ [] := by
  intro hnil
  rw [hnil] at h
  simp [Decoder.new] at h

theorem flush_eq_flushAll_one (cfg : RansCfg) (e : Encoder 1) :
    Encoder.flush cfg e = e.flushAll cfg := by
  show e.flushAt cfg 0 = (List.finRange 1).foldl (fun a c => a.flushAt cfg c) e
  rfl

/-! ## Claim theorems -/

/-- C3: On a freshly constructed single-stream encoder, `flush()` with no
preceding `put` produces `data()` exactly `[0, 0, 128, 0]` for the
byte-aligned variant and `[0, 0, 0, 128, 0, 0, 0, 0]` for the 64-bit
variant; a byte-variant decoder constructed on `[0, 0, 128, 0]` returns
`get(2) == 0`. -/
theorem c3_empty_flush_fixture :
    byteData (Encoder.flush byteCfg (encInit byteCfg 1)) = [0, 0, 128, 0] ∧
    b64Data (Encoder.flush b64Cfg (encInit b64Cfg 1)) = [0, 0, 0, 128, 0, 0, 0, 0] ∧
    (Decoder.new byteCfg 1 [0, 0, 128, 0]).map (fun d => d.get 2) = some 0 := by
  refine ⟨by decide, by decide, by decide⟩

/-- C4: the renormalization invariant `L ≤ x < L << IO_BITS`: the encoder's
`put_at` step preserves it for a valid symbol in both variants, and the
decoder's `renorm_at` loop keeps the upper bound and either restores the
lower bound or exhausts the input, in both variants. -/
theorem c4_renorm_invariant :
    (∀ (sym : EncSymbol) (x : Nat) (out : List Nat), sym.Valid byteCfg →
      byteCfg.L ≤ x → x < byteCfg.L * 2 ^ byteCfg.ioBits →
      byteCfg.L ≤ (encPutState byteCfg sym x out).1 ∧
        (encPutState byteCfg sym x out).1 < byteCfg.L * 2 ^ byteCfg.ioBits) ∧
    (∀ (sym : EncSymbol) (x : Nat) (out : List Nat), sym.Valid b64Cfg →
      b64Cfg.L ≤ x → x < b64Cfg.L * 2 ^ b64Cfg.ioBits →
      b64Cfg.L ≤ (encPutState b64Cfg sym x out).1 ∧
        (encPutState b64Cfg sym x out).1 < b64Cfg.L * 2 ^ b64Cfg.ioBits) ∧
    (∀ (x : Nat) (us : List Nat), UnitsLt byteCfg.ioBits us →
      (x < byteCfg.L * 2 ^ byteCfg.ioBits →
        (decRenormState byteCfg x us).1 < byteCfg.L * 2 ^ byteCfg.ioBits) ∧
      (byteCfg.L ≤ (decRenormState byteCfg x us).1 ∨ (decRenormState byteCfg x us).2 = [])) ∧
    (∀ (x : Nat) (us : List Nat), UnitsLt b64Cfg.ioBits us →
      (x < b64Cfg.L * 2 ^ b64Cfg.ioBits →
        (decRenormState b64Cfg x us).1 < b64Cfg.L * 2 ^ b64Cfg.ioBits) ∧
      (b64Cfg.L ≤ (decRenormState b64Cfg x us).1 ∨ (decRenormState b64Cfg x us).2 = [])) := by
  refine ⟨?_, ?_, ?_, ?_⟩
  · intro sym x out hv h1 h2
    have h := encPutState_spec byteCfg sym.cum_freq sym.freq sym.scale_bits x out hv
      (by decide) h1 h2
    exact ⟨h.1, h.2.1⟩
  · intro sym x out hv h1 h2
    have h := encPutState_spec b64Cfg sym.cum_freq sym.freq sym.scale_bits x out hv
      (by decide) h1 h2
    exact ⟨h.1, h.2.1⟩
  · intro x us hu
    exact ⟨fun h2 => decRenormState_upper byteCfg us x hu h2,
      decRenormState_restores byteCfg us x⟩
  · intro x us hu
    exact ⟨fun h2 => decRenormState_upper b64Cfg us x hu h2,
      decRenormState_restores b64Cfg us x⟩

/-- C4 witness: the invariant bundle applied to a concrete symbol and the
initial state in both variants, and to a concrete renorm input. -/
theorem c4_renorm_invariant_witness :
    (EncSymbol.Valid byteCfg ⟨0, 2, 2⟩ ∧ byteCfg.L ≤ 2 ^ 23 ∧
      (2 : Nat) ^ 23 < byteCfg.L * 2 ^ byteCfg.ioBits) ∧
    (byteCfg.L ≤ (encPutState byteCfg ⟨0, 2, 2⟩ (2 ^ 23) []).1 ∧
      (encPutState byteCfg ⟨0, 2, 2⟩ (2 ^ 23) []).1 < byteCfg.L * 2 ^ byteCfg.ioBits) ∧
    (b64Cfg.L ≤ (encPutState b64Cfg ⟨0, 2, 2⟩ (2 ^ 31) []).1 ∧
      (encPutState b64Cfg ⟨0, 2, 2⟩ (2 ^ 31) []).1 < b64Cfg.L * 2 ^ b64Cfg.ioBits) ∧
    ((2 ^ 10 : Nat) < byteCfg.L * 2 ^ byteCfg.ioBits →
      (decRenormState byteCfg (2 ^ 10) [7, 8]).1 < byteCfg.L * 2 ^ byteCfg.ioBits) ∧
    (byteCfg.L ≤ (decRenormState byteCfg (2 ^ 10) [7, 8]).1 ∨
      (decRenormState byteCfg (2 ^ 10) [7, 8]).2 = []) ∧
    ((2 ^ 10 : Nat) < b64Cfg.L * 2 ^ b64Cfg.ioBits →
      (decRenormState b64Cfg (2 ^ 10) [7, 8]).1 < b64Cfg.L * 2 ^ b64Cfg.ioBits) ∧
    (b64Cfg.L ≤ (decRenormState b64Cfg (2 ^ 10) [7, 8]).1 ∨
      (decRenormState b64Cfg (2 ^ 10) [7, 8]).2 = []) := by
  refine ⟨⟨by decide, by decide, by decide⟩, ?_, ?_, ?_, ?_, ?_, ?_⟩
  · exact c4_renorm_invariant.1 ⟨0, 2, 2⟩ (2 ^ 23) [] (by decide) (by decide) (by decide)
  · exact c4_renorm_invariant.2.1 ⟨0, 2, 2⟩ (2 ^ 31) [] (by decide) (by decide) (by decide)
  · exact fun h =>
      (c4_renorm_invariant.2.2.1 (2 ^ 10) [7, 8] (by decide)).1 h
  · exact (c4_renorm_invariant.2.2.1 (2 ^ 10) [7, 8] (by decide)).2
  · exact fun h =>
      (c4_renorm_invariant.2.2.2 (2 ^ 10) [7, 8] (by decide)).1 h
  · exact (c4_renorm_invariant.2.2.2 (2 ^ 10) [7, 8] (by decide)).2

/-- C6: the source's channel-index debug assertion is
`debug_assert!(channel <= N)`, so `channel == N`, which is out of range
for an `N`-channel coder, passes the check — the assertion does not reject
every `channel ≥ N` (the spec flags this as a bug in the code; a correct
check would use strict `<`). -/
theorem c6_channel_assert_accepts_n : ∀ n : Nat, channelAssert n n = true ∧ ¬ (n < n) :=
  fun n => ⟨by simp [channelAssert], Nat.lt_irrefl n⟩

/-- C7: `DecSymbol::new(cum_freq, freq)` stores the two fields and the
accessors return them unchanged (the same trivial descriptor serves both
width variants). -/
theorem c7_decsymbol_fields : ∀ cum freq : Nat,
    (DecSymbol.new cum freq).cum_freq = cum ∧ (DecSymbol.new cum freq).freq = freq :=
  fun _ _ => ⟨rfl, rfl⟩

/-- C8: after any sequence of `put_at` and `flush_at` calls, `reset()`
returns the encoder to exactly the freshly constructed state: every
channel state is `L`, the write cursor is one past the end, and `data()`
is empty. -/
theorem c8_reset_idempotent : ∀ (cfg : RansCfg) (N : Nat) (ops : List (EncOp N)),
    Encoder.reset cfg (runEncOps cfg (encInit cfg N) ops) = encInit cfg N ∧
    (Encoder.reset cfg (runEncOps cfg (encInit cfg N) ops)).out = [] ∧
    (∀ j, (Encoder.reset cfg (runEncOps cfg (encInit cfg N) ops)).states j = cfg.L) :=
  fun _ _ _ => ⟨rfl, rfl, fun _ => rfl⟩

/-- C9: `get_at(channel, scale_bits)` returns
`states[channel] & ((1 << scale_bits) - 1)` — equivalently
`states[channel] mod 2 ^ scale_bits` — and mutates nothing, so two
consecutive calls with the same arguments return equal values. -/
theorem c9_get_at_pure : ∀ (N : Nat) (d : Decoder N) (c : Fin N) (s : Nat),
    (d.getAt c s).1 = d.states c &&& (2 ^ s - 1) ∧
    (d.getAt c s).1 = d.states c % 2 ^ s ∧
    (d.getAt c s).2 = d ∧
    ((d.getAt c s).2.getAt c s).1 = (d.getAt c s).1 :=
  fun _ d c s => ⟨rfl, and_mask_eq_mod (d.states c) s, rfl, rfl⟩

/-- C10: decoder construction panics (via an unconditional `assert!`, live
in release builds) exactly when the input byte buffer is empty; every
non-empty input constructs a decoder, in both variants. -/
theorem c10_new_panics_iff_empty : ∀ (N : Nat) (bs : List Nat),
    ((Decoder.new byteCfg N bs).isSome ↔ bs ≠ []) ∧
    ((b64DecoderNew N bs).isSome ↔ bs ≠ []) := by
  intro N bs
  constructor
  · unfold Decoder.new
    by_cases h : bs = [] <;> simp [h]
  · unfold b64DecoderNew
    by_cases h : bs = [] <;> simp [h]

/-- C10 witness: the construction iff at concrete inputs. -/
theorem c10_new_panics_iff_empty_witness :
    (((Decoder.new byteCfg 1 [0]).isSome ↔ ([0] : List Nat) ≠ []) ∧
      ((b64DecoderNew 1 [0]).isSome ↔ ([0] : List Nat) ≠ [])) ∧
    (((Decoder.new byteCfg 1 []).isSome ↔ ([] : List Nat) ≠ []) ∧
      ((b64DecoderNew 1 []).isSome ↔ ([] : List Nat) ≠ [])) :=
  ⟨c10_new_panics_iff_empty 1 [0], c10_new_panics_iff_empty 1 []⟩

/-- C5: decoder construction under its length precondition
`len(data) ≥ N * W/8`: it reads `W/8` bytes per channel in ascending
channel order to seed the `N` states and advances the read cursor past the
first `N * W/8` bytes, in both variants (the 64-bit variant reads each
channel's 8 bytes as two little-endian 32-bit units). -/
theorem c5_decoder_construction :
    (∀ (N : Nat) (bytes : List Nat), 1 ≤ N → N * 4 ≤ bytes.length →
      ∃ d : Decoder N, Decoder.new byteCfg N bytes = some d ∧
        (∀ j : Fin N, d.states j = unitsToNat 8 ((bytes.drop (j.val * 4)).take 4)) ∧
        d.rest = bytes.drop (N * 4)) ∧
    (∀ (N : Nat) (bytes : List Nat), 1 ≤ N → N * 8 ≤ bytes.length →
      ∃ d : Decoder N, b64DecoderNew N bytes = some d ∧
        (∀ j : Fin N, d.states j = unitsToNat 8 ((bytes.drop (j.val * 8)).take 8)) ∧
        d.rest = bytes4ToUnits (bytes.drop (N * 8))) := by
  constructor
  · intro N bytes hN hlen
    have hne : bytes ≠ [] := by
      intro h
      rw [h] at hlen
      simp at hlen
      omega
    obtain ⟨h1, h2⟩ := decSeedStates_closed byteCfg N bytes
    refine ⟨⟨fun j => (decSeedStates byteCfg N bytes).1.getD j.val 0,
      (decSeedStates byteCfg N bytes).2⟩, ?_, ?_, h2⟩
    · unfold Decoder.new
      rw [if_neg hne]
    · intro j
      show (decSeedStates byteCfg N bytes).1.getD j.val 0 = _
      rw [h1]
      have hjlen : j.val < ((List.range N).map
          (fun k => unitsToNat byteCfg.ioBits
            ((bytes.drop (k * byteCfg.flushUnits)).take byteCfg.flushUnits))).length := by
        simp
      rw [List.getD_eq_getElem _ 0 hjlen, List.getElem_map, List.getElem_range]
      rfl
  · intro N bytes hN hlen
    have hne : bytes ≠ [] := by
      intro h
      rw [h] at hlen
      simp at hlen
      omega
    obtain ⟨h1, h2⟩ := decSeedStates_closed b64Cfg N (bytes4ToUnits bytes)
    refine ⟨⟨fun j => (decSeedStates b64Cfg N (bytes4ToUnits bytes)).1.getD j.val 0,
      (decSeedStates b64Cfg N (bytes4ToUnits bytes)).2⟩, ?_, ?_, ?_⟩
    · unfold b64DecoderNew
      rw [if_neg hne]
    · intro j
      show (decSeedStates b64Cfg N (bytes4ToUnits bytes)).1.getD j.val 0 = _
      rw [h1]
      have hjlen : j.val < ((List.range N).map
          (fun k => unitsToNat b64Cfg.ioBits
            (((bytes4ToUnits bytes).drop (k * b64Cfg.flushUnits)).take
              b64Cfg.flushUnits))).length := by
        simp
      rw [List.getD_eq_getElem _ 0 hjlen, List.getElem_map, List.getElem_range]
      show unitsToNat 32 (((bytes4ToUnits bytes).drop (j.val * 2)).take 2) = _
      have hdrop : bytes4ToUnits (bytes.drop (j.val * 8))
          = (bytes4ToUnits bytes).drop (j.val * 2) := by
        have h48 : j.val * 8 = 4 * (j.val * 2) := by ring
        rw [h48, bytes4ToUnits_drop]
      rw [← hdrop]
      apply unitsToNat32_take2
      have hj8 : (j.val + 1) * 8 ≤ N * 8 := by
        have := j.isLt
        exact Nat.mul_le_mul_right 8 (by omega)
      rw [List.length_drop]
      omega
    · show (decSeedStates b64Cfg N (bytes4ToUnits bytes)).2 = _
      rw [h2]
      show (bytes4ToUnits bytes).drop (N * 2) = _
      have h48 : N * 8 = 4 * (N * 2) := by ring
      rw [h48, bytes4ToUnits_drop]

/-- C5 witness: a 1-channel byte-variant decoder on 4 bytes and a
1-channel 64-bit decoder on 8 bytes, seeded per the closed form. -/
theorem c5_decoder_construction_witness :
    ((1 * 4 ≤ ([1, 2, 3, 4] : List Nat).length) ∧
      ∃ d : Decoder 1, Decoder.new byteCfg 1 [1, 2, 3, 4] = some d ∧
        (∀ j : Fin 1, d.states j
          = unitsToNat 8 ((([1, 2, 3, 4] : List Nat).drop (j.val * 4)).take 4)) ∧
        d.rest = ([1, 2, 3, 4] : List Nat).drop (1 * 4)) ∧
    ((1 * 8 ≤ ([1, 2, 3, 4, 5, 6, 7, 8] : List Nat).length) ∧
      ∃ d : Decoder 1, b64DecoderNew 1 [1, 2, 3, 4, 5, 6, 7, 8] = some d ∧
        (∀ j : Fin 1, d.states j
          = unitsToNat 8 ((([1, 2, 3, 4, 5, 6, 7, 8] : List Nat).drop (j.val * 8)).take 8)) ∧
        d.rest = bytes4ToUnits (([1, 2, 3, 4, 5, 6, 7, 8] : List Nat).drop (1 * 8))) :=
  ⟨⟨by decide, c5_decoder_construction.1 1 [1, 2, 3, 4] (by decide) (by decide)⟩,
    ⟨by decide, c5_decoder_construction.2 1 [1, 2, 3, 4, 5, 6, 7, 8] (by decide) (by decide)⟩⟩

theorem encodePuts_eq (cfg : RansCfg) :
    ∀ (syms : List EncSymbol) (e : Encoder 1),
      syms.foldl (fun a sym => a.put cfg sym) e
        = encodeCalls cfg e (syms.map (fun sym => ((0 : Fin 1), sym))) := by
  intro syms
  induction syms with
  | nil => intro e; rfl
  | cons sym t ih => intro e; exact ih (e.put cfg sym)

/-- C1: single-stream round trip.  For every finite symbol sequence from a
valid frequency table with one fixed `scale_bits` (at most 12 for the
byte variant, at most 16 for the 64-bit variant), encoding with `put` in
order, flushing, then constructing a decoder on the resulting `data()`
bytes and replaying `get`/`advance` yields the slots of the symbols in
reverse encoding order, for both variants. -/
theorem c1_single_stream_roundtrip :
    (∀ (syms : List EncSymbol) (s : Nat), s ≤ 12 →
      (∀ sym ∈ syms, sym.scale_bits = s ∧ 1 ≤ sym.freq ∧ sym.cum_freq + sym.freq ≤ 2 ^ s) →
      ∃ d : Decoder 1,
        Decoder.new byteCfg 1
            (byteData (Encoder.flush byteCfg
              (syms.foldl (fun a sym => a.put byteCfg sym) (encInit byteCfg 1)))) = some d ∧
        List.Forall₂ (fun (sym : EncSymbol) slot =>
            sym.cum_freq ≤ slot ∧ slot < sym.cum_freq + sym.freq)
          syms.reverse
          (replaySchedule byteCfg d (syms.reverse.map
            (fun sym => ((0 : Fin 1), (⟨sym.cum_freq, sym.freq⟩ : DecSymbol), s)))).1) ∧
    (∀ (syms : List EncSymbol) (s : Nat), s ≤ 16 →
      (∀ sym ∈ syms, sym.scale_bits = s ∧ 1 ≤ sym.freq ∧ sym.cum_freq + sym.freq ≤ 2 ^ s) →
      ∃ d : Decoder 1,
        b64DecoderNew 1
            (b64Data (Encoder.flush b64Cfg
              (syms.foldl (fun a sym => a.put b64Cfg sym) (encInit b64Cfg 1)))) = some d ∧
        List.Forall₂ (fun (sym : EncSymbol) slot =>
            sym.cum_freq ≤ slot ∧ slot < sym.cum_freq + sym.freq)
          syms.reverse
          (replaySchedule b64Cfg d (syms.reverse.map
            (fun sym => ((0 : Fin 1), (⟨sym.cum_freq, sym.freq⟩ : DecSymbol), s)))).1) := by
  constructor
  · intro syms s hs hsym
    have hv : ∀ p ∈ syms.map (fun sym => ((0 : Fin 1), sym)), EncSymbol.Valid byteCfg p.2 := by
      intro p hp
      obtain ⟨sym, hsymm, rfl⟩ := List.mem_map.1 hp
      obtain ⟨h1, h2, h3⟩ := hsym sym hsymm
      refine ⟨h2, ?_, ?_⟩
      · rw [h1]
        exact h3
      · show sym.scale_bits ≤ 23
        omega
    obtain ⟨d, hnew, hF, _, _⟩ := roundtrip_general byteCfg (by decide) (by decide)
      (by decide) (by decide) (syms.map (fun sym => ((0 : Fin 1), sym))) hv
    have hsched : decodeSchedule (syms.map (fun sym => ((0 : Fin 1), sym)))
        = syms.reverse.map
            (fun sym => ((0 : Fin 1), (⟨sym.cum_freq, sym.freq⟩ : DecSymbol), s)) := by
      unfold decodeSchedule
      rw [← List.map_reverse, List.map_map]
      apply List.map_congr_left
      intro sym hmem
      have h1 := (hsym sym (List.mem_reverse.1 hmem)).1
      simp only [Function.comp_apply]
      exact congrArg _ (by rw [h1])
    refine ⟨d, ?_, ?_⟩
    · rw [encodePuts_eq, flush_eq_flushAll_one]
      exact hnew
    · rw [← hsched]
      have hrev : (syms.map (fun sym => ((0 : Fin 1), sym))).reverse
          = syms.reverse.map (fun sym => ((0 : Fin 1), sym)) :=
        (List.map_reverse _ _).symm
      rw [hrev] at hF
      exact List.forall₂_map_left_iff.1 hF
  · intro syms s hs hsym
    have hv : ∀ p ∈ syms.map (fun sym => ((0 : Fin 1), sym)), EncSymbol.Valid b64Cfg p.2 := by
      intro p hp
      obtain ⟨sym, hsymm, rfl⟩ := List.mem_map.1 hp
      obtain ⟨h1, h2, h3⟩ := hsym sym hsymm
      refine ⟨h2, ?_, ?_⟩
      · rw [h1]
        exact h3
      · show sym.scale_bits ≤ 31
        omega
    obtain ⟨d, hnew, hF, _, _⟩ := roundtrip_general b64Cfg (by decide) (by decide)
      (by decide) (by decide) (syms.map (fun sym => ((0 : Fin 1), sym))) hv
    have hne : ((encodeCalls b64Cfg (encInit b64Cfg 1)
        (syms.map (fun sym => ((0 : Fin 1), sym)))).flushAll b64Cfg).out ≠ [] :=
      new_some_ne_nil b64Cfg _ d hnew
    have hu : UnitsLt 32 ((encodeCalls b64Cfg (encInit b64Cfg 1)
        (syms.map (fun sym => ((0 : Fin 1), sym)))).flushAll b64Cfg).out :=
      flushAll_units b64Cfg _ (encodeCalls_units b64Cfg _ _ (by intro u hu; cases hu))
    have hsched : decodeSchedule (syms.map (fun sym => ((0 : Fin 1), sym)))
        = syms.reverse.map
            (fun sym => ((0 : Fin 1), (⟨sym.cum_freq, sym.freq⟩ : DecSymbol), s)) := by
      unfold decodeSchedule
      rw [← List.map_reverse, List.map_map]
      apply List.map_congr_left
      intro sym hmem
      have h1 := (hsym sym (List.mem_reverse.1 hmem)).1
      simp only [Function.comp_apply]
      exact congrArg _ (by rw [h1])
    refine ⟨d, ?_, ?_⟩
    · rw [encodePuts_eq, flush_eq_flushAll_one, b64DecoderNew_data _ hne hu]
      exact hnew
    · rw [← hsched]
      have hrev : (syms.map (fun sym => ((0 : Fin 1), sym))).reverse
          = syms.reverse.map (fun sym => ((0 : Fin 1), sym)) :=
        (List.map_reverse _ _).symm
      rw [hrev] at hF
      exact List.forall₂_map_left_iff.1 hF

/-- C1 witness: the two-symbol fixture (`scale_bits = 2`, symbols
`(0,2)` then `(2,2)`) round-trips in both variants. -/
theorem c1_single_stream_roundtrip_witness :
    ((2 ≤ 12 ∧ ∀ sym ∈ [(⟨0, 2, 2⟩ : EncSymbol), ⟨2, 2, 2⟩],
        sym.scale_bits = 2 ∧ 1 ≤ sym.freq ∧ sym.cum_freq + sym.freq ≤ 2 ^ 2) ∧
      ∃ d : Decoder 1,
        Decoder.new byteCfg 1
            (byteData (Encoder.flush byteCfg
              (([(⟨0, 2, 2⟩ : EncSymbol), ⟨2, 2, 2⟩]).foldl
                (fun a sym => a.put byteCfg sym) (encInit byteCfg 1)))) = some d ∧
        List.Forall₂ (fun (sym : EncSymbol) slot =>
            sym.cum_freq ≤ slot ∧ slot < sym.cum_freq + sym.freq)
          ([(⟨0, 2, 2⟩ : EncSymbol), ⟨2, 2, 2⟩]).reverse
          (replaySchedule byteCfg d (([(⟨0, 2, 2⟩ : EncSymbol), ⟨2, 2, 2⟩]).reverse.map
            (fun sym => ((0 : Fin 1), (⟨sym.cum_freq, sym.freq⟩ : DecSymbol), 2)))).1) ∧
    ((2 ≤ 16 ∧ ∀ sym ∈ [(⟨0, 2, 2⟩ : EncSymbol), ⟨2, 2, 2⟩],
        sym.scale_bits = 2 ∧ 1 ≤ sym.freq ∧ sym.cum_freq + sym.freq ≤ 2 ^ 2) ∧
      ∃ d : Decoder 1,
        b64DecoderNew 1
            (b64Data (Encoder.flush b64Cfg
              (([(⟨0, 2, 2⟩ : EncSymbol), ⟨2, 2, 2⟩]).foldl
                (fun a sym => a.put b64Cfg sym) (encInit b64Cfg 1)))) = some d ∧
        List.Forall₂ (fun (sym : EncSymbol) slot =>
            sym.cum_freq ≤ slot ∧ slot < sym.cum_freq + sym.freq)
          ([(⟨0, 2, 2⟩ : EncSymbol), ⟨2, 2, 2⟩]).reverse
          (replaySchedule b64Cfg d (([(⟨0, 2, 2⟩ : EncSymbol), ⟨2, 2, 2⟩]).reverse.map
            (fun sym => ((0 : Fin 1), (⟨sym.cum_freq, sym.freq⟩ : DecSymbol), 2)))).1) :=
  ⟨⟨⟨by decide, by decide⟩,
      c1_single_stream_roundtrip.1 [⟨0, 2, 2⟩, ⟨2, 2, 2⟩] 2 (by decide) (by decide)⟩,
    ⟨⟨by decide, by decide⟩,
      c1_single_stream_roundtrip.2 [⟨0, 2, 2⟩, ⟨2, 2, 2⟩] 2 (by decide) (by decide)⟩⟩

/-- The decode sequence of the interleaved fixture, exactly as the source
test `test_decode_interleaved` drives it: `get_at` on both channels,
`advance_step_at` on both, `renorm_all()`, four times; returns the eight
read slots in call order. -/
def c2FixtureSlots (d : Decoder 2) : List Nat :=
  let a0 := (d.getAt 0 4).1
  let a1 := (d.getAt 1 4).1
  let d1 := ((d.advanceStepAt byteCfg 0 ⟨12, 4⟩ 4).advanceStepAt byteCfg 1
    ⟨0, 4⟩ 4).renormAll byteCfg
  let b0 := (d1.getAt 0 4).1
  let b1 := (d1.getAt 1 4).1
  let d2 := ((d1.advanceStepAt byteCfg 0 ⟨8, 4⟩ 4).advanceStepAt byteCfg 1
    ⟨0, 4⟩ 4).renormAll byteCfg
  let e0 := (d2.getAt 0 4).1
  let e1 := (d2.getAt 1 4).1
  let d3 := ((d2.advanceStepAt byteCfg 0 ⟨4, 4⟩ 4).advanceStepAt byteCfg 1
    ⟨0, 4⟩ 4).renormAll byteCfg
  let f0 := (d3.getAt 0 4).1
  let f1 := (d3.getAt 1 4).1
  [a0, a1, b0, b1, e0, e1, f0, f1]

/-- C2: N-channel interleaved round trip.  For every valid sequence of
`(channel, symbol)` `put_at` calls followed by `flush_all()`, a decoder on
the resulting bytes, driven with `get_at`/`advance_at` in the
channel-reverse schedule (call order reversed, decoder channel `j` seeded
from encoder channel `N-1-j`), reads each encoded symbol's slot — in both
variants.  In particular the 2-channel byte fixture with `scale_bits = 4`
produces exactly the bytes `[12,0,128,0,0,0,128,0,24,0]` and decodes to
slots `(12,0),(8,0),(4,0),(0,0)` on channels `(0,1)`. -/
theorem c2_interleaved_roundtrip :
    (∀ (N : Nat) (calls : List (Fin N × EncSymbol)), 1 ≤ N →
      (∀ p ∈ calls, EncSymbol.Valid byteCfg p.2) →
      ∃ d : Decoder N,
        Decoder.new byteCfg N
            (byteData ((encodeCalls byteCfg (encInit byteCfg N) calls).flushAll byteCfg))
          = some d ∧
        List.Forall₂ (fun (p : Fin N × EncSymbol) slot =>
            p.2.cum_freq ≤ slot ∧ slot < p.2.cum_freq + p.2.freq)
          calls.reverse (replaySchedule byteCfg d (decodeSchedule calls)).1) ∧
    (∀ (N : Nat) (calls : List (Fin N × EncSymbol)), 1 ≤ N →
      (∀ p ∈ calls, EncSymbol.Valid b64Cfg p.2) →
      ∃ d : Decoder N,
        b64DecoderNew N
            (b64Data ((encodeCalls b64Cfg (encInit b64Cfg N) calls).flushAll b64Cfg))
          = some d ∧
        List.Forall₂ (fun (p : Fin N × EncSymbol) slot =>
            p.2.cum_freq ≤ slot ∧ slot < p.2.cum_freq + p.2.freq)
          calls.reverse (replaySchedule b64Cfg d (decodeSchedule calls)).1) ∧
    (byteData ((encodeCalls byteCfg (encInit byteCfg 2)
        [((0 : Fin 2), ⟨0, 4, 4⟩), ((1 : Fin 2), ⟨0, 4, 4⟩), ((0 : Fin 2), ⟨0, 4, 4⟩),
          ((1 : Fin 2), ⟨4, 4, 4⟩), ((0 : Fin 2), ⟨0, 4, 4⟩), ((1 : Fin 2), ⟨8, 4, 4⟩),
          ((0 : Fin 2), ⟨0, 4, 4⟩), ((1 : Fin 2), ⟨12, 4, 4⟩)]).flushAll byteCfg)
        = [12, 0, 128, 0, 0, 0, 128, 0, 24, 0] ∧
      (Decoder.new byteCfg 2 [12, 0, 128, 0, 0, 0, 128, 0, 24, 0]).map c2FixtureSlots
        = some [12, 0, 8, 0, 4, 0, 0, 0]) := by
  refine ⟨?_, ?_, by decide, by decide⟩
  · intro N calls hN hv
    obtain ⟨d, hnew, hF, _, _⟩ := roundtrip_general byteCfg (by decide) (by decide)
      (by decide) hN calls hv
    exact ⟨d, hnew, hF⟩
  · intro N calls hN hv
    obtain ⟨d, hnew, hF, _, _⟩ := roundtrip_general b64Cfg (by decide) (by decide)
      (by decide) hN calls hv
    have hne : ((encodeCalls b64Cfg (encInit b64Cfg N) calls).flushAll b64Cfg).out ≠ [] :=
      new_some_ne_nil b64Cfg _ d hnew
    have hu : UnitsLt 32 ((encodeCalls b64Cfg (encInit b64Cfg N) calls).flushAll b64Cfg).out :=
      flushAll_units b64Cfg _ (encodeCalls_units b64Cfg _ _ (by intro u hu; cases hu))
    refine ⟨d, ?_, hF⟩
    rw [b64DecoderNew_data _ hne hu]
    exact hnew

/-- C2 witness: the general byte-variant interleaved law applied to a
concrete one-call schedule, hypotheses discharged concretely. -/
theorem c2_interleaved_roundtrip_witness :
    (1 ≤ 1 ∧ ∀ p ∈ [((0 : Fin 1), (⟨0, 2, 2⟩ : EncSymbol))], EncSymbol.Valid byteCfg p.2) ∧
    ∃ d : Decoder 1,
      Decoder.new byteCfg 1
          (byteData ((encodeCalls byteCfg (encInit byteCfg 1)
            [((0 : Fin 1), ⟨0, 2, 2⟩)]).flushAll byteCfg)) = some d ∧
      List.Forall₂ (fun (p : Fin 1 × EncSymbol) slot =>
          p.2.cum_freq ≤ slot ∧ slot < p.2.cum_freq + p.2.freq)
        ([((0 : Fin 1), (⟨0, 2, 2⟩ : EncSymbol))]).reverse
        (replaySchedule byteCfg d (decodeSchedule [((0 : Fin 1), ⟨0, 2, 2⟩)])).1 :=
  ⟨⟨by decide, by decide⟩,
    c2_interleaved_roundtrip.1 1 [((0 : Fin 1), ⟨0, 2, 2⟩)] (by decide) (by decide)⟩
